import Mathlib

/-!
# Pin alias table of the attiny84 variant (`pins_atmel_map.h`)

The header is a list of preprocessor directives.  It is embedded as data
(`pins_atmel_map_h`), together with a small model of the C preprocessor for
the directives the header uses: `#ifndef`, `#define` of object-like macros and
`#endif`, and the rescanning expansion of an identifier.
-/

namespace PinsAtmelMap

/-- A preprocessing token; identifiers are kept exactly as they are spelled. -/
abbrev Token := String

/-- The directives that occur in the header. A macro body is its replacement list. -/
inductive Directive where
  | ifndef (name : Token)
  | define (name : Token) (body : List Token)
  | endif
  deriving DecidableEq, Repr

/-- The header `atmel_ports/variants/attiny84/pins_atmel_map.h`, directive by directive. -/
def pins_atmel_map_h : List Directive :=
  [ Directive.ifndef "PIN_MAPPINGS_H",
    .define "PIN_MAPPING_H" [],
    .define "ArduinoPin0" ["AtmelPA0"],
    .define "ArduinoPin1" ["AtmelPA1"],
    .define "ArduinoPin2" ["AtmelPA2"],
    .define "ArduinoPin3" ["AtmelPA3"],
    .define "ArduinoPin4" ["AtmelPA4"],
    .define "ArduinoPin5" ["AtmelPA5"],
    .define "ArduinoPin6" ["AtmelPA6"],
    .define "ArduinoPin7" ["AtmelPA7"],
    .define "ArduinoPin8" ["AtmelPB2"],
    .define "ArduinoPin9" ["AtmelPB1"],
    .define "ArduinoPin10" ["AtmelPB0"],
    .define "ArduinoPin11" ["AtmelPB3"],
    .define "ArduinoPinA0" ["ArduinoPin0"],
    .define "ArduinoPinA1" ["ArduinoPin1"],
    .define "ArduinoPinA2" ["ArduinoPin2"],
    .define "ArduinoPinA3" ["ArduinoPin3"],
    .define "ArduinoPinA4" ["ArduinoPin4"],
    .define "ArduinoPinA5" ["ArduinoPin5"],
    .define "ArduinoPinA6" ["ArduinoPin6"],
    .define "ArduinoPinA7" ["ArduinoPin7"],
    .define "AtmelCS" ["ArduinoPin7"],
    .define "AtmelCOPI" ["ArduinoPin6"],
    .define "AtmelCIPO" ["ArduinoPin5"],
    .define "AtmelSCK" ["ArduinoPin4"],
    .define "AtmelSDA" ["ArduinoPin6"],
    .define "AtmelSCL" ["ArduinoPin4"],
    .endif ]

/-! ## Preprocessor model -/

/-- The macro table: name and replacement list of every macro currently defined. -/
abbrev MacroTable := List (Token × List Token)

/-- Replacement list of a macro, when the name is defined. -/
def lookupMacro : MacroTable → Token → Option (List Token)
  | [], _ => none
  | (n, body) :: rest, t => if n = t then some body else lookupMacro rest t

/-- Diagnostics the preprocessor issues. -/
inductive Diagnostic where
  | redefined (name : Token)
  | strayEndif
  deriving DecidableEq, Repr

/-- Preprocessor state while a translation unit is read. -/
structure PPState where
  /-- macros defined so far -/
  macros : MacroTable
  /-- one flag per open conditional group, innermost first; `true` when its lines are processed -/
  conds : List Bool
  /-- names of the `#define` directives carried out so far, oldest first -/
  executed : List Token
  /-- diagnostics issued so far, oldest first -/
  diagnostics : List Diagnostic
  deriving DecidableEq, Repr

/-- State at the start of a translation unit. -/
def PPState.init : PPState := ⟨[], [], [], []⟩

/-- Whether a name is currently defined as a macro. -/
def PPState.isDefined (st : PPState) (t : Token) : Bool :=
  (lookupMacro st.macros t).isSome

/-- Whether lines are currently processed (no enclosing group is being skipped). -/
def PPState.active (st : PPState) : Bool :=
  st.conds.all id

/-- Effect of one directive. -/
def stepDirective (st : PPState) : Directive → PPState
  | .ifndef n => { st with conds := (st.active && !st.isDefined n) :: st.conds }
  | .endif =>
    match st.conds with
    | [] => { st with diagnostics := st.diagnostics ++ [.strayEndif] }
    | _ :: outer => { st with conds := outer }
  | .define n body =>
    if st.active then
      match lookupMacro st.macros n with
      | none =>
        { st with macros := st.macros ++ [(n, body)], executed := st.executed ++ [n] }
      | some old =>
        if old = body then { st with executed := st.executed ++ [n] }
        else
          { st with
            macros := st.macros.map (fun e => if e.1 = n then (n, body) else e),
            executed := st.executed ++ [n],
            diagnostics := st.diagnostics ++ [.redefined n] }
    else st

/-- Reading a file: its directives take effect in order. -/
def includeFile (file : List Directive) (st : PPState) : PPState :=
  file.foldl stepDirective st

/-- Concatenation of the expansions of the tokens of a replacement list. -/
def joinAll : List (Option (List Token)) → Option (List Token)
  | [] => some []
  | none :: _ => none
  | some r :: rest => (joinAll rest).map (r ++ ·)

/-- Expansion of one identifier with rescanning. `hide` holds the macros being
replaced, which are not replaced again; the result is `none` when `fuel` nested
replacements did not suffice. -/
def expandWith (macros : MacroTable) : Nat → List Token → Token → Option (List Token)
  | 0, _, _ => none
  | fuel + 1, hide, t =>
    if t ∈ hide then some [t]
    else
      match lookupMacro macros t with
      | none => some [t]
      | some body => joinAll (body.map (fun u => expandWith macros fuel (t :: hide) u))

/-- The names an identifier passes through while it is replaced: the identifier,
then the single token of each replacement list in turn. -/
def chainWith (macros : MacroTable) : Nat → List Token → Token → List Token
  | 0, _, t => [t]
  | fuel + 1, hide, t =>
    if t ∈ hide then [t]
    else
      match lookupMacro macros t with
      | some [u] => t :: chainWith macros fuel (t :: hide) u
      | _ => [t]

/-- A physical pin of the microcontroller: port letter and bit index. -/
structure PhysicalId where
  port : Char
  bit : Nat
  deriving DecidableEq, Repr

/-- Modelled from the spec: the Atmel identifiers `AtmelP<port><bit>` are declared
outside this header; an identifier of that shape names the physical pin
(port-letter, bit-index), with the bit index a single digit `0..7`. -/
def physicalId? (t : Token) : Option PhysicalId :=
  match t.data with
  | ['A', 't', 'm', 'e', 'l', 'P', p, d] =>
    if p.isUpper && decide ('0' ≤ d) && decide (d ≤ '7') then some ⟨p, d.toNat - '0'.toNat⟩
    else none
  | _ => none

deriving instance DecidableEq for Except

/-- Why an identifier does not name a pin. -/
inductive ResolveError where
  | outOfFuel
  | unresolvedSymbol (t : Token)
  | notOneToken (ts : List Token)
  deriving DecidableEq, Repr

/-- Resolution of a name with a bound on nested replacements. -/
def resolveWith (fuel : Nat) (macros : MacroTable) (name : Token) :
    Except ResolveError PhysicalId :=
  match expandWith macros fuel [] name with
  | none => .error .outOfFuel
  | some [t] =>
    match physicalId? t with
    | some p => .ok p
    | none => .error (.unresolvedSymbol t)
  | some ts => .error (.notOneToken ts)

/-- Resolution of a name: every macro is replaced at most once along a chain, so
one more replacement than there are macros is never needed. -/
def resolve (macros : MacroTable) (name : Token) : Except ResolveError PhysicalId :=
  resolveWith (macros.length + 1) macros name

/-- The macro table a translation unit sees after including the header once. -/
def pinTable : MacroTable :=
  (includeFile pins_atmel_map_h PPState.init).macros

/-- Spelling of digital logical pin `n`. -/
def digitalName (n : Nat) : Token := "ArduinoPin" ++ toString n

/-- Spelling of analog channel `k`. -/
def analogName (k : Nat) : Token := "ArduinoPinA" ++ toString k

/-- The function aliases of the header, in the order they are defined. -/
def functionAliases : List Token :=
  ["AtmelCS", "AtmelCOPI", "AtmelCIPO", "AtmelSCK", "AtmelSDA", "AtmelSCL"]

/-- Names of the `#define` directives of a file, in order. -/
def definedNames : List Directive → List Token
  | [] => []
  | .define n _ :: rest => n :: definedNames rest
  | _ :: rest => definedNames rest

/-- Number of table entries whose macro is not being replaced yet. -/
def pending (macros : MacroTable) (hide : List Token) : Nat :=
  (macros.filter (fun e => decide (e.1 ∉ hide))).length

/-- Whether a directive is a `#define`. -/
def Directive.isDefine : Directive → Bool
  | .define _ _ => true
  | _ => false

/-- The names a name passes through in a table, with the replacement bound of `resolve`. -/
def chain (macros : MacroTable) (name : Token) : List Token :=
  chainWith macros (macros.length + 1) [] name

/-- The digital pin spellings `ArduinoPin0 .. ArduinoPin11`. -/
def digitalNames : List Token := (List.range 12).map digitalName

/-- The analog alias spellings `ArduinoPinA0 .. ArduinoPinA7`. -/
def analogNames : List Token := (List.range 8).map analogName

/-- All names of the pin table: digital pins, analog aliases, function aliases. -/
def tableNames : List Token := digitalNames ++ analogNames ++ functionAliases

/-- The digital pin number each function alias is a rename of, as the header writes it. -/
def functionAliasPins : List (Token × Nat) :=
  [("AtmelCS", 7), ("AtmelCOPI", 6), ("AtmelCIPO", 5), ("AtmelSCK", 4),
   ("AtmelSDA", 6), ("AtmelSCL", 4)]

/-! ## The two resolution scenarios -/

/-- A resolution whose success flag is set is a pin. -/
theorem ok_of_isSome (r : Except ResolveError PhysicalId) (h : r.toOption.isSome = true) :
    ∃ p, r = .ok p := by
  cases r with
  | ok p => exact ⟨p, rfl⟩
  | error e => simp [Except.toOption] at h

/-- C1: digital pin 7 (`ArduinoPin7`) resolves to port A bit 7; the chip-select alias
`AtmelCS` is defined as `ArduinoPin7` and resolves to port A bit 7 as well, so the two
resolutions agree. -/
theorem resolve_pin7_chip_select_agree :
    digitalName 7 = "ArduinoPin7" ∧
    resolve pinTable "ArduinoPin7" = .ok ⟨'A', 7⟩ ∧
    lookupMacro pinTable "AtmelCS" = some ["ArduinoPin7"] ∧
    chain pinTable "AtmelCS" = ["AtmelCS", "ArduinoPin7", "AtmelPA7"] ∧
    resolve pinTable "AtmelCS" = .ok ⟨'A', 7⟩ ∧
    resolve pinTable "AtmelCS" = resolve pinTable "ArduinoPin7" := by
  decide

/-- C2: digital pin 10 (`ArduinoPin10`) resolves to port B bit 0. -/
theorem resolve_pin10 :
    digitalName 10 = "ArduinoPin10" ∧ resolve pinTable "ArduinoPin10" = .ok ⟨'B', 0⟩ := by
  decide

set_option maxRecDepth 100000 in
theorem digital_pairs_checked :
    ∀ a < 12, ∀ b < 12, a ≠ b →
      (resolve pinTable (digitalName a)).toOption.isSome = true ∧
      (resolve pinTable (digitalName b)).toOption.isSome = true ∧
      resolve pinTable (digitalName a) ≠ resolve pinTable (digitalName b) := by
  decide

/-- C3: the digital pin table is injective: two distinct pin numbers below 12 both
resolve to a physical pin, and the two physical pins differ. -/
theorem digital_resolve_injective (i j : Nat) (hi : i < 12) (hj : j < 12) (hij : i ≠ j) :
    ∃ p q, resolve pinTable (digitalName i) = .ok p ∧
      resolve pinTable (digitalName j) = .ok q ∧ p ≠ q := by
  obtain ⟨ha, hb, hne⟩ := digital_pairs_checked i hi j hj hij
  obtain ⟨p, hp⟩ := ok_of_isSome _ ha
  obtain ⟨q, hq⟩ := ok_of_isSome _ hb
  refine ⟨p, q, hp, hq, ?_⟩
  intro hpq
  apply hne
  rw [hp, hq, hpq]

/-- Pins 8 and 10 resolve to different physical pins. -/
theorem digital_resolve_injective_witness :
    resolve pinTable (digitalName 8) ≠ resolve pinTable (digitalName 10) := by
  obtain ⟨p, q, hp, hq, hne⟩ := digital_resolve_injective 8 10 (by decide) (by decide) (by decide)
  rw [hp, hq]
  intro h
  injection h with h
  exact hne h

/-- C4: for every `k` in `0..7` the analog alias `ArduinoPinA<k>` is defined, after
`ArduinoPin<k>`, with the single token `ArduinoPin<k>` as its body (a name that is not
itself a physical identifier), and resolves to the pin of digital pin `k`, port A bit `k`. -/
theorem analog_alias_renames_digital (k : Nat) (hk : k < 8) :
    lookupMacro pinTable (analogName k) = some [digitalName k] ∧
    physicalId? (digitalName k) = none ∧
    (definedNames pins_atmel_map_h).indexOf (digitalName k)
      < (definedNames pins_atmel_map_h).indexOf (analogName k) ∧
    analogName k ∈ definedNames pins_atmel_map_h ∧
    resolve pinTable (analogName k) = resolve pinTable (digitalName k) ∧
    resolve pinTable (analogName k) = .ok ⟨'A', k⟩ := by
  revert k
  decide

/-- Analog channel 3 is a rename of digital pin 3 and resolves to port A bit 3. -/
theorem analog_alias_renames_digital_witness :
    lookupMacro pinTable (analogName 3) = some [digitalName 3] ∧
    resolve pinTable (analogName 3) = .ok ⟨'A', 3⟩ :=
  ⟨(analog_alias_renames_digital 3 (by decide)).1,
   (analog_alias_renames_digital 3 (by decide)).2.2.2.2.2⟩

/-- C5: the function aliases are `AtmelCS`, `AtmelCOPI`, `AtmelCIPO`, `AtmelSCK`,
`AtmelSDA`, `AtmelSCL`, renames of digital pins 7, 6, 5, 4, 6, 4; each is defined after
the digital pin it names, has that pin as its whole body, and resolves to the same
physical pin as it, port A with the bit of the same number. -/
theorem function_alias_renames_digital :
    functionAliasPins.map Prod.fst = functionAliases ∧
    (definedNames pins_atmel_map_h).drop 21 = functionAliases ∧
    ∀ e ∈ functionAliasPins,
      lookupMacro pinTable e.1 = some [digitalName e.2] ∧
      (definedNames pins_atmel_map_h).indexOf (digitalName e.2)
        < (definedNames pins_atmel_map_h).indexOf e.1 ∧
      resolve pinTable e.1 = resolve pinTable (digitalName e.2) ∧
      resolve pinTable e.1 = .ok ⟨'A', e.2⟩ := by
  decide

/-- The alias `AtmelCIPO` resolves to port A bit 5. -/
theorem function_alias_renames_digital_witness :
    resolve pinTable "AtmelCIPO" = .ok ⟨'A', 5⟩ :=
  (function_alias_renames_digital.2.2 ("AtmelCIPO", 5) (by decide)).2.2.2

/-- C10: resolution of function aliases is not injective: `AtmelSDA` and `AtmelCOPI` both
resolve to port A bit 6, `AtmelSCL` and `AtmelSCK` both to port A bit 4, and two distinct
function aliases resolve to the same pin only when they are one of these two pairs. -/
theorem function_alias_sharing :
    resolve pinTable "AtmelSDA" = .ok ⟨'A', 6⟩ ∧
    resolve pinTable "AtmelCOPI" = .ok ⟨'A', 6⟩ ∧
    resolve pinTable "AtmelSCL" = .ok ⟨'A', 4⟩ ∧
    resolve pinTable "AtmelSCK" = .ok ⟨'A', 4⟩ ∧
    ∀ a ∈ functionAliases, ∀ b ∈ functionAliases, a ≠ b →
      (resolve pinTable a = resolve pinTable b ↔
        (a = "AtmelSDA" ∧ b = "AtmelCOPI") ∨ (a = "AtmelCOPI" ∧ b = "AtmelSDA") ∨
        (a = "AtmelSCL" ∧ b = "AtmelSCK") ∨ (a = "AtmelSCK" ∧ b = "AtmelSCL")) := by
  decide

/-- The distinct aliases `AtmelCS` and `AtmelSCK` resolve to different pins. -/
theorem function_alias_sharing_witness :
    resolve pinTable "AtmelCS" ≠ resolve pinTable "AtmelSCK" := by
  intro h
  have := (function_alias_sharing.2.2.2.2 "AtmelCS" (by decide) "AtmelSCK" (by decide)
    (by decide)).mp h
  revert this
  decide

/-! ## The range of digital pins -/

theorem lookupMacro_eq_none (m : MacroTable) (t : Token) (h : t ∉ m.map Prod.fst) :
    lookupMacro m t = none := by
  induction m with
  | nil => rfl
  | cons e rest ih =>
    obtain ⟨n, body⟩ := e
    simp only [List.map_cons, List.mem_cons, not_or] at h
    simp only [lookupMacro]
    rw [if_neg (fun hn => h.1 hn.symm)]
    exact ih h.2

theorem digitalName_data (n : Nat) :
    (digitalName n).data = "ArduinoPin".data ++ Nat.toDigits 10 n := rfl

theorem toDigitsCore_length_pos (fuel n : Nat) (ds : List Char) :
    ds.length + 1 ≤ (Nat.toDigitsCore 10 (fuel + 1) n ds).length := by
  induction fuel generalizing n ds with
  | zero =>
    by_cases h : n / 10 = 0 <;> simp [Nat.toDigitsCore, h]
  | succ f ih =>
    rw [Nat.toDigitsCore]
    by_cases h : n / 10 = 0
    · simp [h]
    · have := ih (n / 10) (Nat.digitChar (n % 10) :: ds)
      simp only [List.length_cons] at this
      simp only [h, if_false]
      omega

theorem toDigits_length_of_ge_100 (n : Nat) (h : 100 ≤ n) :
    3 ≤ (Nat.toDigits 10 n).length := by
  obtain ⟨m, rfl⟩ : ∃ m, n = m + 2 := ⟨n - 2, by omega⟩
  unfold Nat.toDigits
  have h1 : (m + 2) / 10 ≠ 0 := by omega
  have h2 : (m + 2) / 10 / 10 ≠ 0 := by omega
  rw [Nat.toDigitsCore]
  simp only [h1, if_false]
  rw [Nat.toDigitsCore]
  simp only [h2, if_false]
  have := toDigitsCore_length_pos m ((m + 2) / 10 / 10)
    [Nat.digitChar ((m + 2) / 10 % 10), Nat.digitChar ((m + 2) % 10)]
  simpa using this

/-- A digital pin spelling is never the spelling of a physical identifier. -/
theorem physicalId_digitalName (n : Nat) : physicalId? (digitalName n) = none := by
  unfold physicalId?
  rw [digitalName_data]
  rfl

/-- A digital pin spelling with three or more digits is none of the names the header defines. -/
theorem digitalName_not_defined_of_ge_100 (n : Nat) (h : 100 ≤ n) :
    digitalName n ∉ definedNames pins_atmel_map_h := by
  have hkeys : ∀ k ∈ definedNames pins_atmel_map_h,
      k.data.length ≤ 12 ∨ k.data.head? ≠ some 'A' := by decide
  intro hmem
  have hlen : 13 ≤ (digitalName n).data.length := by
    rw [digitalName_data, List.length_append]
    have := toDigits_length_of_ge_100 n h
    have h10 : "ArduinoPin".data.length = 10 := rfl
    omega
  have hhead : (digitalName n).data.head? = some 'A' := by
    rw [digitalName_data]
    rfl
  rcases hkeys _ hmem with hk | hk
  · omega
  · exact hk hhead

set_option maxRecDepth 100000 in
theorem digitalName_not_defined_of_lt_100 :
    ∀ n < 100, 12 ≤ n → digitalName n ∉ definedNames pins_atmel_map_h := by
  decide

theorem digitalName_not_defined (n : Nat) (h : 12 ≤ n) :
    digitalName n ∉ definedNames pins_atmel_map_h := by
  by_cases h100 : n < 100
  · exact digitalName_not_defined_of_lt_100 n h100 h
  · exact digitalName_not_defined_of_ge_100 n (by omega)

/-- An identifier that is no macro and no physical identifier is an unresolved symbol. -/
theorem resolve_undefined (m : MacroTable) (t : Token) (h : lookupMacro m t = none)
    (hp : physicalId? t = none) : resolve m t = .error (.unresolvedSymbol t) := by
  simp [resolve, resolveWith, expandWith, h, hp]

/-- C7: the digital pins the header defines are exactly `ArduinoPin0 .. ArduinoPin11`,
defined in ascending order from 0: for `n < 12` the name `ArduinoPin<n>` is a macro and
resolves to a physical pin; for `n ≥ 12` the name is not defined by the header, is no
macro of the table, and resolution fails with an unresolved symbol. -/
theorem digital_pins_exactly_range (n : Nat) :
    ((definedNames pins_atmel_map_h).drop 1).take 12 = (List.range 12).map digitalName ∧
    pinTable.map Prod.fst = definedNames pins_atmel_map_h ∧
    (n < 12 →
      digitalName n ∈ definedNames pins_atmel_map_h ∧
      ∃ p, resolve pinTable (digitalName n) = .ok p) ∧
    (12 ≤ n →
      digitalName n ∉ definedNames pins_atmel_map_h ∧
      lookupMacro pinTable (digitalName n) = none ∧
      resolve pinTable (digitalName n) = .error (.unresolvedSymbol (digitalName n))) := by
  have hkeys : pinTable.map Prod.fst = definedNames pins_atmel_map_h := by decide
  refine ⟨by decide, hkeys, ?_, ?_⟩
  · intro hn
    have h : ∀ a < 12, digitalName a ∈ definedNames pins_atmel_map_h ∧
        (resolve pinTable (digitalName a)).toOption.isSome = true := by decide
    exact ⟨(h n hn).1, ok_of_isSome _ (h n hn).2⟩
  · intro hn
    have hnot := digitalName_not_defined n hn
    have hnone : lookupMacro pinTable (digitalName n) = none :=
      lookupMacro_eq_none _ _ (by rw [hkeys]; exact hnot)
    exact ⟨hnot, hnone, resolve_undefined _ _ hnone (physicalId_digitalName n)⟩

/-- Pin 11 is defined by the header; pin 12 is an unresolved symbol. -/
theorem digital_pins_exactly_range_witness :
    digitalName 11 ∈ definedNames pins_atmel_map_h ∧
    resolve pinTable (digitalName 12) = .error (.unresolvedSymbol (digitalName 12)) :=
  ⟨((digital_pins_exactly_range 11).2.2.1 (by decide)).1,
   ((digital_pins_exactly_range 12).2.2.2 (by decide)).2.2⟩

/-- C9: digital pins 0..7 resolve to port A with the bit equal to the pin number, pins
8, 9, 10, 11 to port B bits 2, 1, 0, 3; the physical pins reached from digital pins 0..11
are exactly port A bits 0..7 and port B bits 0..3. -/
theorem digital_pins_image (p : PhysicalId) :
    (∀ n < 8, resolve pinTable (digitalName n) = .ok ⟨'A', n⟩) ∧
    resolve pinTable (digitalName 8) = .ok ⟨'B', 2⟩ ∧
    resolve pinTable (digitalName 9) = .ok ⟨'B', 1⟩ ∧
    resolve pinTable (digitalName 10) = .ok ⟨'B', 0⟩ ∧
    resolve pinTable (digitalName 11) = .ok ⟨'B', 3⟩ ∧
    ((∃ n, n < 12 ∧ resolve pinTable (digitalName n) = .ok p) ↔
      (p.port = 'A' ∧ p.bit ≤ 7) ∨ (p.port = 'B' ∧ p.bit ≤ 3)) := by
  refine ⟨by decide, by decide, by decide, by decide, by decide, ?_⟩
  constructor
  · rintro ⟨n, hn, hr⟩
    have hm : ∀ a < 12, resolve pinTable (digitalName a) ∈
        (((List.range 8).map (PhysicalId.mk 'A') ++ (List.range 4).map (PhysicalId.mk 'B')).map
          Except.ok) := by decide
    have hc : ∀ q ∈ (List.range 8).map (PhysicalId.mk 'A') ++ (List.range 4).map (PhysicalId.mk 'B'),
        (q.port = 'A' ∧ q.bit ≤ 7) ∨ (q.port = 'B' ∧ q.bit ≤ 3) := by decide
    have hmem := hm n hn
    rw [hr, List.mem_map] at hmem
    obtain ⟨q, hq, hqp⟩ := hmem
    injection hqp with hqp
    subst hqp
    exact hc q hq
  · obtain ⟨port, bit⟩ := p
    rintro (⟨hp, hb⟩ | ⟨hp, hb⟩)
    · simp only at hp hb
      subst hp
      have h : ∀ b ≤ 7, ∃ n, n < 12 ∧ resolve pinTable (digitalName n) = .ok ⟨'A', b⟩ := by
        decide
      exact h bit hb
    · simp only at hp hb
      subst hp
      have h : ∀ b ≤ 3, ∃ n, n < 12 ∧ resolve pinTable (digitalName n) = .ok ⟨'B', b⟩ := by
        decide
      exact h bit hb

/-- Port B bit 3 is reached from a digital pin below 12; digital pin 5 is port A bit 5. -/
theorem digital_pins_image_witness :
    (∃ n, n < 12 ∧ resolve pinTable (digitalName n) = .ok ⟨'B', 3⟩) ∧
    resolve pinTable (digitalName 5) = .ok ⟨'A', 5⟩ :=
  ⟨(digital_pins_image ⟨'B', 3⟩).2.2.2.2.2.mpr (Or.inr ⟨rfl, by decide⟩),
   (digital_pins_image ⟨'B', 3⟩).1 5 (by decide)⟩

/-! ## Reading the header: the include guard -/

theorem isDefined_iff (st : PPState) (t : Token) :
    st.isDefined t = true ↔ t ∈ st.macros.map Prod.fst := by
  unfold PPState.isDefined
  induction st.macros with
  | nil => simp [lookupMacro]
  | cons e rest ih =>
    obtain ⟨n, body⟩ := e
    by_cases h : n = t
    · simp [lookupMacro, h]
    · have h2 : ¬ t = n := fun h3 => h h3.symm
      simp [lookupMacro, h, h2, ih]

theorem lookupMacro_mem (m : MacroTable) (n : Token) (old : List Token)
    (h : lookupMacro m n = some old) : n ∈ m.map Prod.fst := by
  have := (isDefined_iff ⟨m, [], [], []⟩ n).mp (by simp [PPState.isDefined, h])
  exact this

/-- A `#define` outside a skipped group is carried out: the conditional stack stays, the
name is logged, and the defined names are the old ones and the new one. -/
theorem stepDirective_define (st : PPState) (n : Token) (body : List Token)
    (hact : st.active = true) :
    (stepDirective st (.define n body)).conds = st.conds ∧
    (stepDirective st (.define n body)).executed = st.executed ++ [n] ∧
    ∀ t, t ∈ (stepDirective st (.define n body)).macros.map Prod.fst ↔
      t ∈ st.macros.map Prod.fst ∨ t = n := by
  simp only [stepDirective, hact, if_true]
  cases hl : lookupMacro st.macros n with
  | none => simp
  | some old =>
    have hn := lookupMacro_mem _ _ _ hl
    by_cases ho : old = body
    · simp only [ho, if_true, true_and]
      intro t
      constructor
      · exact Or.inl
      · rintro (h | h)
        · exact h
        · rw [h]; exact hn
    · simp only [ho, if_false, true_and]
      have hmap : (st.macros.map (fun e => if e.1 = n then (n, body) else e)).map Prod.fst
          = st.macros.map Prod.fst := by
        rw [List.map_map]
        apply List.map_congr_left
        intro e _
        by_cases he : e.1 = n <;> simp [he]
      rw [hmap]
      intro t
      constructor
      · exact Or.inl
      · rintro (h | h)
        · exact h
        · rw [h]; exact hn

/-- A run of `#define` lines outside a skipped group: all of them are carried out. -/
theorem includeFile_defines (ds : List Directive) (hds : ∀ d ∈ ds, d.isDefine = true)
    (st : PPState) (hact : st.active = true) :
    (includeFile ds st).conds = st.conds ∧
    (includeFile ds st).executed = st.executed ++ definedNames ds ∧
    ∀ t, t ∈ (includeFile ds st).macros.map Prod.fst ↔
      t ∈ st.macros.map Prod.fst ∨ t ∈ definedNames ds := by
  induction ds generalizing st with
  | nil => simp [includeFile, definedNames]
  | cons d rest ih =>
    cases d with
    | ifndef n => exact absurd (hds _ (List.mem_cons_self _ _)) (by simp [Directive.isDefine])
    | endif => exact absurd (hds _ (List.mem_cons_self _ _)) (by simp [Directive.isDefine])
    | define n body =>
      obtain ⟨hc, he, hk⟩ := stepDirective_define st n body hact
      have hact2 : (stepDirective st (.define n body)).active = true := by
        simpa [PPState.active, hc] using hact
      obtain ⟨hc2, he2, hk2⟩ := ih (fun d hd => hds d (List.mem_cons_of_mem _ hd))
        (stepDirective st (.define n body)) hact2
      simp only [includeFile, List.foldl_cons] at hc2 he2 hk2 ⊢
      refine ⟨hc2.trans hc, ?_, ?_⟩
      · rw [he2, he]; simp [definedNames]
      · intro t
        rw [hk2, hk]
        simp only [definedNames, List.mem_cons]
        tauto

/-- A run of `#define` lines inside a skipped group changes nothing. -/
theorem includeFile_defines_skipped (ds : List Directive) (hds : ∀ d ∈ ds, d.isDefine = true)
    (st : PPState) (hact : st.active = false) : includeFile ds st = st := by
  induction ds with
  | nil => rfl
  | cons d rest ih =>
    cases d with
    | ifndef n => exact absurd (hds _ (List.mem_cons_self _ _)) (by simp [Directive.isDefine])
    | endif => exact absurd (hds _ (List.mem_cons_self _ _)) (by simp [Directive.isDefine])
    | define n body =>
      have hstep : stepDirective st (.define n body) = st := by
        simp [stepDirective, hact]
      have := ih (fun d hd => hds d (List.mem_cons_of_mem _ hd))
      simpa [includeFile, hstep] using this

/-- An `#endif` closes the innermost group and changes nothing else. -/
theorem stepDirective_endif (s : PPState) (b : Bool) (outer : List Bool)
    (h : s.conds = b :: outer) :
    (stepDirective s .endif).conds = outer ∧
    (stepDirective s .endif).executed = s.executed ∧
    (stepDirective s .endif).macros = s.macros := by
  obtain ⟨m, c, e, d⟩ := s
  simp only at h
  subst h
  simp [stepDirective]

/-- The header is its guard test, a run of `#define` lines, and the closing `#endif`. -/
theorem header_shape :
    pins_atmel_map_h =
      [ Directive.ifndef "PIN_MAPPINGS_H"] ++ (pins_atmel_map_h.drop 1).dropLast ++ [.endif] ∧
    (∀ d ∈ (pins_atmel_map_h.drop 1).dropLast, d.isDefine = true) ∧
    definedNames ((pins_atmel_map_h.drop 1).dropLast) = "PIN_MAPPING_H" :: tableNames := by
  decide

/-- Effect of one inclusion of the header where `PIN_MAPPINGS_H` is not defined. -/
theorem includeFile_header (st : PPState) (hact : st.active = true)
    (hundef : st.isDefined "PIN_MAPPINGS_H" = false) :
    (includeFile pins_atmel_map_h st).conds = st.conds ∧
    (includeFile pins_atmel_map_h st).executed = st.executed ++ "PIN_MAPPING_H" :: tableNames ∧
    ∀ t, t ∈ (includeFile pins_atmel_map_h st).macros.map Prod.fst ↔
      t ∈ st.macros.map Prod.fst ∨ t ∈ "PIN_MAPPING_H" :: tableNames := by
  obtain ⟨hshape, hdefs, hnames⟩ := header_shape
  have hact1 : (stepDirective st ( Directive.ifndef "PIN_MAPPINGS_H")).active = true := by
    simp [stepDirective, PPState.active, hundef] at hact ⊢
    exact hact
  obtain ⟨hc, he, hk⟩ := includeFile_defines _ hdefs _ hact1
  rw [hnames] at he hk
  have hrun : includeFile pins_atmel_map_h st =
      stepDirective (includeFile ((pins_atmel_map_h.drop 1).dropLast)
        (stepDirective st ( Directive.ifndef "PIN_MAPPINGS_H"))) .endif := by
    conv_lhs => rw [hshape]
    simp [includeFile, List.foldl_append]
  have hc1 : (includeFile ((pins_atmel_map_h.drop 1).dropLast)
      (stepDirective st ( Directive.ifndef "PIN_MAPPINGS_H"))).conds = true :: st.conds := by
    rw [hc]; simp [stepDirective, hact, hundef]
  obtain ⟨hc2, he2, hm2⟩ := stepDirective_endif _ _ _ hc1
  rw [hrun, hc2, he2, hm2]
  refine ⟨rfl, ?_, ?_⟩
  · rw [he]; rfl
  · intro t; rw [hk]; rfl

/-- Where `PIN_MAPPINGS_H` is defined the guard works: the whole header is skipped. -/
theorem includeFile_header_skipped (st : PPState)
    (hdef : st.isDefined "PIN_MAPPINGS_H" = true) :
    includeFile pins_atmel_map_h st = st := by
  obtain ⟨hshape, hdefs, -⟩ := header_shape
  have hact1 : (stepDirective st ( Directive.ifndef "PIN_MAPPINGS_H")).active = false := by
    simp [stepDirective, PPState.active, hdef]
  have hskip := includeFile_defines_skipped _ hdefs _ hact1
  have hrun : includeFile pins_atmel_map_h st =
      stepDirective (includeFile ((pins_atmel_map_h.drop 1).dropLast)
        (stepDirective st ( Directive.ifndef "PIN_MAPPINGS_H"))) .endif := by
    conv_lhs => rw [hshape]
    simp [includeFile, List.foldl_append]
  rw [hrun, hskip]
  simp [stepDirective]

/-- C8: the include guard does not protect against a second inclusion. The header tests
`PIN_MAPPINGS_H` and defines `PIN_MAPPING_H`; read in a state where `PIN_MAPPINGS_H` is
not defined, it leaves `PIN_MAPPINGS_H` not defined, and reading it a second time carries
out the guard definition and all 26 table definitions again. -/
theorem include_guard_ineffective (st : PPState) (hact : st.active = true)
    (hundef : st.isDefined "PIN_MAPPINGS_H" = false) :
    pins_atmel_map_h.take 2 =
      [ Directive.ifndef "PIN_MAPPINGS_H", Directive.define "PIN_MAPPING_H" []] ∧
    (includeFile pins_atmel_map_h st).isDefined "PIN_MAPPINGS_H" = false ∧
    (includeFile pins_atmel_map_h st).isDefined "PIN_MAPPING_H" = true ∧
    (includeFile pins_atmel_map_h st).active = true ∧
    tableNames.length = 26 ∧
    (includeFile pins_atmel_map_h (includeFile pins_atmel_map_h st)).executed =
      (includeFile pins_atmel_map_h st).executed ++ "PIN_MAPPING_H" :: tableNames := by
  obtain ⟨hc, -, hk⟩ := includeFile_header st hact hundef
  have hact1 : (includeFile pins_atmel_map_h st).active = true := by
    simpa [PPState.active, hc] using hact
  have hundef1 : (includeFile pins_atmel_map_h st).isDefined "PIN_MAPPINGS_H" = false := by
    rw [Bool.eq_false_iff]
    intro h
    rw [isDefined_iff, hk] at h
    rcases h with h | h
    · have := (isDefined_iff st _).mpr h
      rw [hundef] at this
      exact absurd this (by decide)
    · revert h; decide
  have hdef1 : (includeFile pins_atmel_map_h st).isDefined "PIN_MAPPING_H" = true := by
    rw [isDefined_iff, hk]
    exact Or.inr (List.mem_cons_self _ _)
  exact ⟨by decide, hundef1, hdef1, hact1, by decide,
    (includeFile_header _ hact1 hundef1).2.1⟩

/-- At the start of a translation unit the header, read twice, is carried out twice. -/
theorem include_guard_ineffective_witness :
    (includeFile pins_atmel_map_h PPState.init).isDefined "PIN_MAPPINGS_H" = false ∧
    (includeFile pins_atmel_map_h (includeFile pins_atmel_map_h PPState.init)).executed =
      (includeFile pins_atmel_map_h PPState.init).executed ++ "PIN_MAPPING_H" :: tableNames :=
  ⟨(include_guard_ineffective PPState.init (by decide) (by decide)).2.1,
   (include_guard_ineffective PPState.init (by decide) (by decide)).2.2.2.2.2⟩

/-! ## Termination of resolution -/

theorem joinAll_map_mono (f g : Token → Option (List Token)) (body : List Token)
    (h : ∀ u r, f u = some r → g u = some r) (r : List Token)
    (hr : joinAll (body.map f) = some r) : joinAll (body.map g) = some r := by
  induction body generalizing r with
  | nil => simpa [joinAll] using hr
  | cons u rest ih =>
    simp only [List.map_cons] at hr ⊢
    cases hf : f u with
    | none => rw [hf] at hr; simp [joinAll] at hr
    | some a =>
      rw [hf] at hr
      rw [h u a hf]
      simp only [joinAll] at hr ⊢
      cases hj : joinAll (rest.map f) with
      | none => rw [hj] at hr; simp at hr
      | some b => rw [hj] at hr; rw [ih b hj]; exact hr

/-- A result reached within some bound is reached within every larger bound. -/
theorem expandWith_succ (m : MacroTable) (fuel : Nat) (hide : List Token) (t : Token)
    (r : List Token) (h : expandWith m fuel hide t = some r) :
    expandWith m (fuel + 1) hide t = some r := by
  induction fuel generalizing hide t r with
  | zero => simp [expandWith] at h
  | succ f ih =>
    rw [expandWith] at h ⊢
    by_cases hh : t ∈ hide
    · simpa [hh] using h
    · simp only [hh, if_false] at h ⊢
      cases hl : lookupMacro m t with
      | none => rw [hl] at h; simpa using h
      | some body =>
        rw [hl] at h
        simp only at h ⊢
        exact joinAll_map_mono _ _ body (fun u r hu => ih (t :: hide) u r hu) r h

theorem expandWith_mono (m : MacroTable) (fuel k : Nat) (hide : List Token) (t : Token)
    (r : List Token) (h : expandWith m fuel hide t = some r) :
    expandWith m (fuel + k) hide t = some r := by
  induction k with
  | zero => exact h
  | succ k ih => exact expandWith_succ m (fuel + k) hide t r ih

/-- Resolution that succeeds within a bound gives the same pin within every larger bound. -/
theorem resolveWith_mono (m : MacroTable) (fuel fuel2 : Nat) (t : Token) (p : PhysicalId)
    (hle : fuel ≤ fuel2) (h : resolveWith fuel m t = .ok p) : resolveWith fuel2 m t = .ok p := by
  obtain ⟨k, rfl⟩ : ∃ k, fuel2 = fuel + k := ⟨fuel2 - fuel, by omega⟩
  unfold resolveWith at h ⊢
  cases he : expandWith m fuel [] t with
  | none => rw [he] at h; simp at h
  | some r => rw [he] at h; rw [expandWith_mono m fuel k [] t r he]; exact h

theorem filter_length_le_of_imp (p q : Token × List Token → Bool)
    (h : ∀ x, p x = true → q x = true) (l : MacroTable) :
    (l.filter p).length ≤ (l.filter q).length := by
  induction l with
  | nil => simp
  | cons e rest ih =>
    cases hp : p e with
    | false =>
      cases hq : q e with
      | false => simpa [List.filter_cons, hp, hq] using ih
      | true =>
        simp only [List.filter_cons, hp, hq, if_true, List.length_cons]
        simp only [Bool.false_eq_true, if_false]
        omega
    | true =>
      have hq := h e hp
      simpa [List.filter_cons, hp, hq] using ih

theorem filter_length_lt_of_imp (p q : Token × List Token → Bool)
    (h : ∀ x, p x = true → q x = true) (l : MacroTable) (x : Token × List Token)
    (hx : x ∈ l) (hqx : q x = true) (hpx : p x = false) :
    (l.filter p).length < (l.filter q).length := by
  induction l with
  | nil => simp at hx
  | cons e rest ih =>
    have hle := filter_length_le_of_imp p q h rest
    rcases List.mem_cons.mp hx with hxe | hxr
    · subst hxe
      simp only [List.filter_cons, hpx, hqx, if_true, List.length_cons]
      simp only [Bool.false_eq_true, if_false]
      omega
    · have hlt := ih hxr
      cases hp : p e with
      | false =>
        cases hq : q e with
        | false => simpa [List.filter_cons, hp, hq] using hlt
        | true =>
          simp only [List.filter_cons, hp, hq, if_true, List.length_cons]
          simp only [Bool.false_eq_true, if_false]
          omega
      | true =>
        have hq := h e hp
        simpa [List.filter_cons, hp, hq] using hlt

theorem pending_cons_lt (m : MacroTable) (hide : List Token) (t : Token)
    (ht : t ∈ m.map Prod.fst) (hh : t ∉ hide) : pending m (t :: hide) < pending m hide := by
  obtain ⟨x, hx, hxt⟩ := List.mem_map.mp ht
  unfold pending
  apply filter_length_lt_of_imp _ _ _ m x hx
  · simp only [decide_eq_true_eq]
    rw [hxt]; exact hh
  · simp only [decide_eq_false_iff_not, not_not]
    rw [hxt]; exact List.mem_cons_self _ _
  · intro y hy
    simp only [decide_eq_true_eq] at hy ⊢
    exact fun hm => hy (List.mem_cons_of_mem _ hm)

theorem joinAll_map_isSome (f : Token → Option (List Token)) (body : List Token)
    (h : ∀ u, (f u).isSome = true) : (joinAll (body.map f)).isSome = true := by
  induction body with
  | nil => rfl
  | cons u rest ih =>
    simp only [List.map_cons]
    cases hf : f u with
    | none => have := h u; rw [hf] at this; simp at this
    | some a =>
      simp only [joinAll]
      cases hj : joinAll (rest.map f) with
      | none => rw [hj] at ih; simp at ih
      | some b => rfl

/-- Expansion finishes as soon as the bound exceeds the number of macros not yet being
replaced. -/
theorem expandWith_isSome (m : MacroTable) (fuel : Nat) (hide : List Token) (t : Token)
    (h : pending m hide < fuel) : (expandWith m fuel hide t).isSome = true := by
  induction fuel generalizing hide t with
  | zero => omega
  | succ f ih =>
    rw [expandWith]
    by_cases hh : t ∈ hide
    · simp [hh]
    · simp only [hh, if_false]
      cases hl : lookupMacro m t with
      | none => rfl
      | some body =>
        simp only
        apply joinAll_map_isSome
        intro u
        apply ih
        have := pending_cons_lt m hide t (lookupMacro_mem m t body hl) hh
        omega

/-- The bound `resolve` uses always suffices: it never runs out of replacements. -/
theorem resolve_ne_outOfFuel (m : MacroTable) (t : Token) :
    resolve m t ≠ .error .outOfFuel := by
  have h := expandWith_isSome m (m.length + 1) [] t (by
    unfold pending
    have := List.length_filter_le (fun e : Token × List Token => decide (e.1 ∉ ([] : List Token))) m
    omega)
  unfold resolve resolveWith
  cases he : expandWith m (m.length + 1) [] t with
  | none => rw [he] at h; simp at h
  | some r =>
    match r with
    | [] => simp
    | [u] =>
      simp only
      cases physicalId? u <;> simp
    | _ :: _ :: _ => simp

/-- C6: the header defines the guard macro and the 26 table names (12 digital pins, 8
analog aliases, 6 function aliases), each exactly once and without a redefinition
diagnostic. Resolving any of the 26 names ends in exactly one physical pin: the names
passed through are the name itself, at most one digital pin in between, and a physical
Atmel identifier; and every bound of three or more replacements gives the same pin. -/
theorem table_is_function :
    definedNames pins_atmel_map_h = "PIN_MAPPING_H" :: tableNames ∧
    digitalNames.length = 12 ∧ analogNames.length = 8 ∧ functionAliases.length = 6 ∧
    tableNames.length = 26 ∧
    (includeFile pins_atmel_map_h PPState.init).diagnostics = [] ∧
    ∀ t ∈ tableNames,
      (definedNames pins_atmel_map_h).count t = 1 ∧
      ∃ p, resolve pinTable t = .ok p ∧
        (∀ q, resolve pinTable t = .ok q → q = p) ∧
        (chain pinTable t).head? = some t ∧
        (chain pinTable t).length ≤ 3 ∧
        (∀ u ∈ ((chain pinTable t).drop 1).dropLast, u ∈ digitalNames) ∧
        (chain pinTable t).getLast?.bind physicalId? = some p ∧
        ∀ fuel, 3 ≤ fuel → resolveWith fuel pinTable t = .ok p := by
  refine ⟨by decide, by decide, by decide, by decide, by decide, by decide, ?_⟩
  have hd : ∀ t ∈ tableNames,
      (definedNames pins_atmel_map_h).count t = 1 ∧
      (chain pinTable t).head? = some t ∧
      (chain pinTable t).length ≤ 3 ∧
      (∀ u ∈ ((chain pinTable t).drop 1).dropLast, u ∈ digitalNames) ∧
      ((chain pinTable t).getLast?.bind physicalId?).isSome = true ∧
      ((chain pinTable t).getLast?.bind physicalId?).map Except.ok
        = some (resolveWith 3 pinTable t) := by
    decide
  intro t ht
  obtain ⟨h1, h2, h3, h4, h5, h6⟩ := hd t ht
  refine ⟨h1, ?_⟩
  cases hp : (chain pinTable t).getLast?.bind physicalId? with
  | none => rw [hp] at h5; simp at h5
  | some p =>
    rw [hp] at h6
    simp only [Option.map_some', Option.some.injEq] at h6
    have hres : resolve pinTable t = .ok p :=
      resolveWith_mono pinTable 3 (pinTable.length + 1) t p (by decide) h6.symm
    refine ⟨p, hres, ?_, h2, h3, h4, rfl, ?_⟩
    · intro q hq
      rw [hres] at hq
      injection hq with hq
      exact hq.symm
    · intro fuel hf
      exact resolveWith_mono pinTable 3 fuel t p hf h6.symm

/-- The alias `AtmelSDA` resolves to port A bit 6 also with a bound of 5 replacements. -/
theorem table_is_function_witness :
    resolveWith 5 pinTable "AtmelSDA" = .ok ⟨'A', 6⟩ := by
  obtain ⟨p, -, hu, -, -, -, -, hf⟩ := (table_is_function.2.2.2.2.2.2 "AtmelSDA" (by decide)).2
  rw [hf 5 (by decide), hu ⟨'A', 6⟩ (by decide)]

end PinsAtmelMap
